import Mathlib

/-!
Shallow embedding of the segmentation engine of `frontend/src/App.tsx`
(seeded multi-start K-Means, silhouette approximation, elbow locator,
K-selection policy, recommendation ranking), together with theorems
checking the natural-language specification against it.

Modelling conventions:
* JS numbers carrying data (matrix entries, centroids, inertia,
  silhouette scores, thresholds) are modelled as exact rationals `ℚ`
  where the source uses only field operations, and as reals `ℝ` where
  `Math.sqrt` is involved (silhouette, elbow denominator).
* JS 32-bit bitwise operations are modelled on `Nat` with explicit
  `% 2^32` reductions (`u32`); both `ToInt32` and `ToUint32` coincide
  with the `Nat` representative modulo `2^32` for every operation used.
* A JS array read `a[i]` that can be out of range (reading `undefined`
  and then crashing in arithmetic) is modelled with `List.get?` and the
  `Option` monad; reads that are in range by construction use
  `List.getD`.
-/

/-! ### JS 32-bit helpers -/

/-- Reduction of a `Nat` to a JS 32-bit value (`ToUint32`). -/
def u32 (n : ℕ) : ℕ := n % 4294967296

/-- `Math.imul`: 32-bit multiplication (value modulo `2^32`). -/
def imul32 (a b : ℕ) : ℕ := u32 (a * b)

/-- JS `>>>`: unsigned right shift on the 32-bit value. -/
def shr32 (a k : ℕ) : ℕ := u32 a / 2 ^ k

/-- JS `^` on 32-bit values. -/
def xor32 (a b : ℕ) : ℕ := Nat.xor (u32 a) (u32 b)

/-- JS `|` on 32-bit values. -/
def or32 (a b : ℕ) : ℕ := Nat.lor (u32 a) (u32 b)

/-- One draw of the seeded generator `rngMulberry32` in `kmeans`:
returns the float in `[0,1)` (exact rational) and the updated state
(`s += 0x6d2b79f5`; the state is only ever consumed through 32-bit
operations, so keeping the raw sum is faithful). -/
def mulberry32Next (s : ℕ) : ℚ × ℕ :=
  let s' := s + 0x6d2b79f5
  let t1 := s'
  let t2 := imul32 (xor32 t1 (shr32 t1 15)) (or32 t1 1)
  let t3 := xor32 t2 (t2 + imul32 (xor32 t2 (shr32 t2 7)) (or32 t2 61))
  (((xor32 t3 (shr32 t3 14) : ℕ) : ℚ) / 4294967296, s')

/-! ### Deterministic Fisher–Yates shuffle (`runOnce`, lines 2473–2478) -/

/-- One Fisher–Yates step at position `i`:
`j = Math.floor(rnd() * (i + 1))`, then swap `idx[i]` and `idx[j]`. -/
def fyStep (st : List ℕ × ℕ) (i : ℕ) : List ℕ × ℕ :=
  let (q, s') := mulberry32Next st.2
  let j := (q * ((i : ℚ) + 1)).floor.toNat
  let ti := st.1.getD i 0
  let tj := st.1.getD j 0
  (((st.1.set i tj).set j ti), s')

/-- The deterministically shuffled index array `idx` of `runOnce`
(loop `for (i = idx.length - 1; i > 0; i--)`). -/
def shuffledIndices (N seed : ℕ) : List ℕ :=
  (((List.range' 1 (N - 1)).reverse).foldl fyStep (List.range N, seed)).1

/-! ### Squared distance and one K-Means run -/

/-- `dist2` of `kmeans`: squared Euclidean distance over the first `D`
coordinates. -/
def dist2 (D : ℕ) (a b : List ℚ) : ℚ :=
  ((List.range D).map fun d =>
    let dd := a.getD d 0 - b.getD d 0
    dd * dd).sum

/-- One step of the inner assignment scan over centroid index `c`
(`runOnce`, lines 2489–2491): the accumulator `(best, bestd)` keeps the
first index of strictly smallest squared distance; `none` models the
sentinel `bestd = Infinity`.  `centers.get? c` is `none` exactly when
the source reads the `undefined` centroid `centers[c]` (and would crash
inside `dist2`). -/
def assignScan (D : ℕ) (centers : List (List ℚ)) (row : List ℚ)
    (st : ℕ × Option ℚ) (c : ℕ) : Option (ℕ × Option ℚ) :=
  (centers.get? c).map fun cen =>
    let d := dist2 D row cen
    match st.2 with
    | none => (c, some d)
    | some bd => if d < bd then (c, some d) else st

/-- The assignment of one row (`runOnce`, lines 2487–2494): scan the
centroids `c = 0, …, K-1` with `assignScan`, starting from
`(best, bestd) = (0, Infinity)`, and keep the final `best`. -/
def assignRow (D K : ℕ) (centers : List (List ℚ)) (row : List ℚ) : Option ℕ :=
  (((List.range K).foldlM (assignScan D centers row)
    ((0 : ℕ), (none : Option ℚ)))).map Prod.fst

/-- All rows assigned in order (the `// assign` loop). -/
def assignAll (D K : ℕ) (centers : List (List ℚ)) : List (List ℚ) → Option (List ℕ)
  | [] => some []
  | row :: rest =>
    (assignRow D K centers row).bind fun b =>
      (assignAll D K centers rest).map fun bs => b :: bs

/-- One assignment pass: the new label list together with the `changed`
flag (`changed` is set iff some row's new label differs from its old
one, i.e. iff the new list differs from the old one). -/
def stepAssign (D K : ℕ) (mat : List (List ℚ)) (centers : List (List ℚ))
    (labels : List ℕ) : Option (List ℕ × Bool) :=
  (assignAll D K centers mat).map fun ls => (ls, decide (ls ≠ labels))

/-- Number of rows currently assigned to cluster `c` (the `counts[c]`
accumulator of the `// update` loop). -/
def clusterCount (labels : List ℕ) (c : ℕ) : ℕ := labels.count c

/-- Column sum of the rows assigned to cluster `c` (the `sums[c][d]`
accumulator of the `// update` loop). -/
def clusterColSum (mat : List (List ℚ)) (labels : List ℕ) (c d : ℕ) : ℚ :=
  (((mat.zip labels).filter fun p => p.2 == c).map fun p => p.1.getD d 0).sum

/-- One update pass (`runOnce`, lines 2496–2508): cluster `c` becomes
the mean of its assigned rows; a cluster with zero members keeps its
previous centroid (`if (counts[c] === 0) continue`). -/
def stepUpdate (D K : ℕ) (mat : List (List ℚ)) (labels : List ℕ)
    (centers : List (List ℚ)) : List (List ℚ) :=
  (List.range K).map fun c =>
    if clusterCount labels c = 0 then centers.getD c []
    else (List.range D).map fun d =>
      clusterColSum mat labels c d / (clusterCount labels c : ℚ)

/-- The `while (changed && it < maxIter)` loop, with the remaining
iteration budget as fuel.  The returned `Bool` instruments whether the
loop exited because no label changed (`true`, convergence) or because
the budget ran out (`false`); the source keeps this only implicitly. -/
def kmLoop (D K : ℕ) (mat : List (List ℚ)) :
    ℕ → List (List ℚ) → List ℕ → Option (List (List ℚ) × List ℕ × Bool)
  | 0, centers, labels => some (centers, labels, false)
  | fuel + 1, centers, labels =>
    (stepAssign D K mat centers labels).bind fun p =>
      let cs := stepUpdate D K mat p.1 centers
      if p.2 then kmLoop D K mat fuel cs p.1 else some (cs, p.1, true)

/-- Initial centroids: the first `K` shuffled rows
(`idx.slice(0, K).map(i => mat[i].slice())`).  When `K > N` this list
has only `N` entries, exactly as in the source. -/
def initialCenters (mat : List (List ℚ)) (K seed : ℕ) : List (List ℚ) :=
  ((shuffledIndices mat.length seed).take K).map fun i => mat.getD i []

/-- The assign/update loop of `runOnce`, starting from the shuffled
initial centroids and the all-zero label array. -/
def runOnceFull (D : ℕ) (mat : List (List ℚ)) (K maxIter seed : ℕ) :
    Option (List (List ℚ) × List ℕ × Bool) :=
  kmLoop D K mat maxIter (initialCenters mat K seed)
    (List.replicate mat.length 0)

/-- Result record of a single K-Means run. -/
structure Run1 where
  labels : List ℕ
  centers : List (List ℚ)
  inertia : ℚ
deriving DecidableEq, Repr

/-- The final inertia sum (`runOnce`, lines 2510–2511): total squared
distance of each row to its assigned centroid.  `centers.get? l` is
`none` when the source would read an `undefined` centroid. -/
def inertiaSum (D : ℕ) (centers : List (List ℚ)) :
    List (List ℚ × ℕ) → Option ℚ
  | [] => some 0
  | p :: rest =>
    (centers.get? p.2).bind fun cen =>
      (inertiaSum D centers rest).map fun s => dist2 D p.1 cen + s

/-- `runOnce(initSeed)` of `kmeans`. -/
def runOnce (D : ℕ) (mat : List (List ℚ)) (K maxIter seed : ℕ) : Option Run1 :=
  (runOnceFull D mat K maxIter seed).bind fun r =>
    (inertiaSum D r.1 (mat.zip r.2.1)).map fun inr =>
      { labels := r.2.1, centers := r.1, inertia := inr }

/-- Result record returned by `kmeans`. -/
structure KmeansResult where
  labels : List ℕ
  centroids : List (List ℚ)
  inertia : ℚ
deriving DecidableEq, Repr

/-- The multi-start loop of `kmeans` (lines 2516–2520): trial `t` runs
with seed `seed + t * 101`; a trial replaces the incumbent only on
strictly smaller inertia. -/
def multiStart (mat : List (List ℚ)) (K D maxIter seed : ℕ) :
    Run1 → List ℕ → Option Run1
  | best, [] => some best
  | best, t :: ts =>
    (runOnce D mat K maxIter (seed + t * 101)).bind fun trial =>
      multiStart mat K D maxIter seed
        (if trial.inertia < best.inertia then trial else best) ts

/-- `kmeans(mat, K, maxIter, seed, nInit)`.  Reading `mat[0].length`
fails on an empty matrix, exactly as the source's `const D`. -/
def kmeans (mat : List (List ℚ)) (K maxIter seed nInit : ℕ) :
    Option KmeansResult :=
  (mat.get? 0).bind fun row0 =>
    let D := row0.length
    (runOnce D mat K maxIter seed).bind fun first =>
      (multiStart mat K D maxIter seed first (List.range' 1 (nInit - 1))).map
        fun best =>
          { labels := best.labels, centroids := best.centers,
            inertia := best.inertia }

/-! ### Basic structural lemmas -/

theorem getD_map_range {α : Type} (f : ℕ → α) {c K : ℕ} (hc : c < K) (d : α) :
    ((List.range K).map f).getD c d = f c := by
  simp [List.getD_eq_getElem?_getD, List.getElem?_map, List.getElem?_range hc]

theorem foldl_fyStep_length (l : List ℕ) :
    ∀ st : List ℕ × ℕ, ((l.foldl fyStep st).1).length = st.1.length := by
  induction l with
  | nil => intro st; rfl
  | cons x xs ih =>
    intro st
    rw [List.foldl_cons, ih]
    simp [fyStep]

theorem shuffledIndices_length (N seed : ℕ) :
    (shuffledIndices N seed).length = N := by
  rw [shuffledIndices, foldl_fyStep_length]
  exact List.length_range N

theorem initialCenters_length (mat : List (List ℚ)) (K seed : ℕ) :
    (initialCenters mat K seed).length = min K mat.length := by
  rw [initialCenters, List.length_map, List.length_take, shuffledIndices_length]

theorem foldlM_option_none {α : Type} (f : α → ℕ → Option α) {l : List ℕ} {c : ℕ}
    (hc : c ∈ l) (hf : ∀ st, f st c = none) :
    ∀ init, l.foldlM f init = none := by
  induction l with
  | nil => cases hc
  | cons x xs ih =>
    intro init
    rcases List.mem_cons.mp hc with hx | hx
    · subst hx
      simp [List.foldlM_cons, hf]
    · cases hfx : f init x with
      | none => simp [List.foldlM_cons, hfx]
      | some b => simp [List.foldlM_cons, hfx, ih hx]

theorem assignRow_none {D K : ℕ} {centers : List (List ℚ)} (row : List ℚ)
    (h : centers.length < K) : assignRow D K centers row = none := by
  rw [assignRow, foldlM_option_none _ (List.mem_range.mpr h)]
  · rfl
  · intro st
    rw [assignScan, List.get?_eq_none.mpr le_rfl]
    rfl

/-! ### Claim C2: requests with `K > N` -/

theorem runOnce_overK_none (mat : List (List ℚ)) (D K maxIter seed : ℕ)
    (hmat : mat ≠ []) (hK : mat.length < K) (hIter : 1 ≤ maxIter) :
    runOnce D mat K maxIter seed = none := by
  obtain ⟨row0, rest, rfl⟩ := List.exists_cons_of_ne_nil hmat
  obtain ⟨m, rfl⟩ : ∃ m, maxIter = m + 1 :=
    ⟨maxIter - 1, (Nat.succ_pred_eq_of_pos hIter).symm⟩
  have hlen : (initialCenters (row0 :: rest) K seed).length < K := by
    rw [initialCenters_length]
    exact lt_of_le_of_lt (min_le_right _ _) hK
  have hassign : assignRow D K (initialCenters (row0 :: rest) K seed) row0 = none :=
    assignRow_none row0 hlen
  rw [runOnce, runOnceFull, kmLoop, stepAssign, assignAll, hassign]
  rfl

/-- Claim C2 (counterexample): `kmeans` on the 1-row matrix `[[0]]` with
`K = 2` (default `maxIter = 30`, `seed = 12345`, `nInit = 10`) does not
run to completion: the first run's assignment step reads the missing
centroid `centers[1]` and the computation aborts (`none`), so no result
with empty clusters is ever produced. -/
theorem kmeans_overK_counterexample :
    kmeans [[(0 : ℚ)]] 2 30 12345 10 = none := by
  with_unfolding_all rfl

/-- Claim C2 (amended): for a non-empty matrix with `K > N` rows and at
least one iteration allowed, `kmeans` does not run to completion at all:
initialization yields only `N` centroids and the first assignment pass
reads an `undefined` centroid, aborting the computation (`none`).  The
tolerated-empty-clusters behaviour only exists for `K ≤ N`. -/
theorem kmeans_overK_fails (mat : List (List ℚ)) (K maxIter seed nInit : ℕ)
    (hmat : mat ≠ []) (hK : mat.length < K) (hIter : 1 ≤ maxIter) :
    kmeans mat K maxIter seed nInit = none := by
  obtain ⟨row0, rest, rfl⟩ := List.exists_cons_of_ne_nil hmat
  rw [kmeans]
  have h0 : (row0 :: rest).get? 0 = some row0 := rfl
  rw [h0, Option.some_bind]
  simp only [runOnce_overK_none (row0 :: rest) row0.length K maxIter seed hmat hK
    hIter, Option.none_bind]

/-- Claim C2 (witness for the amended theorem): a concrete instance,
`kmeans` on a 2-row matrix with `K = 3`. -/
theorem kmeans_overK_fails_witness :
    kmeans [[(0 : ℚ)], [(1 : ℚ)]] 3 30 7 2 = none :=
  kmeans_overK_fails [[(0 : ℚ)], [(1 : ℚ)]] 3 30 7 2 (by decide) (by decide)
    (by decide)

/-! ### Claim C5: empty clusters keep their centroid -/

/-- Claim C5: in every update step, a cluster `c < K` with zero assigned
rows keeps exactly the centroid value it had before the step (it is
never recomputed from an empty set; in this exact-arithmetic model no
NaN can arise). -/
theorem stepUpdate_keeps_empty_cluster (D K : ℕ) (mat : List (List ℚ))
    (labels : List ℕ) (centers : List (List ℚ)) (c : ℕ) (hc : c < K)
    (hcount : clusterCount labels c = 0) :
    (stepUpdate D K mat labels centers).getD c [] = centers.getD c [] := by
  rw [stepUpdate, getD_map_range _ hc, if_pos hcount]

/-- Claim C5 (witness): concrete update step with an empty cluster 1. -/
theorem stepUpdate_keeps_empty_cluster_witness :
    (stepUpdate 1 2 [[(1 : ℚ)], [(3 : ℚ)]] [0, 0] [[(5 : ℚ)], [(7 : ℚ)]]).getD 1 []
      = [[(5 : ℚ)], [(7 : ℚ)]].getD 1 [] :=
  stepUpdate_keeps_empty_cluster 1 2 [[(1 : ℚ)], [(3 : ℚ)]] [0, 0]
    [[(5 : ℚ)], [(7 : ℚ)]] 1 (by decide) (by decide)

/-! ### Claim C4: multi-start selection -/

theorem multiStart_eq_foldl (mat : List (List ℚ)) (K D maxIter seed : ℕ)
    (r : ℕ → Run1) :
    ∀ (l : List ℕ) (best : Run1),
      (∀ t ∈ l, runOnce D mat K maxIter (seed + t * 101) = some (r t)) →
      multiStart mat K D maxIter seed best l =
        some (l.foldl
          (fun b t => if (r t).inertia < b.inertia then r t else b) best) := by
  intro l
  induction l with
  | nil => intro best _; rfl
  | cons x xs ih =>
    intro best h
    rw [multiStart, h x (List.mem_cons_self x xs), Option.some_bind,
      ih _ fun t ht => h t (List.mem_cons_of_mem x ht), List.foldl_cons]

theorem foldl_pick_argmin (r : ℕ → Run1) :
    ∀ n : ℕ, ∃ i, i ≤ n ∧
      (List.range' 1 n).foldl
          (fun b t => if (r t).inertia < b.inertia then r t else b) (r 0) = r i ∧
      (∀ j, j ≤ n → (r i).inertia ≤ (r j).inertia) ∧
      (∀ j, j < i → (r i).inertia < (r j).inertia) := by
  intro n
  induction n with
  | zero =>
    exact ⟨0, le_rfl, rfl, fun j hj => by rw [Nat.le_zero.mp hj],
      fun j hj => absurd hj (Nat.not_lt_zero j)⟩
  | succ n ih =>
    obtain ⟨i, hi, heq, hmin, hstrict⟩ := ih
    rw [@List.range'_concat 1 1 n, List.foldl_append, List.foldl_cons,
      List.foldl_nil, heq, Nat.one_mul]
    by_cases hlt : (r (1 + n)).inertia < (r i).inertia
    · refine ⟨1 + n, by omega, by rw [if_pos hlt], ?_, ?_⟩
      · intro j hj
        rcases Nat.lt_or_ge j (n + 1) with hj' | hj'
        · exact le_of_lt (lt_of_lt_of_le hlt (hmin j (by omega)))
        · have : j = 1 + n := by omega
          rw [this]
      · intro j hj
        exact lt_of_lt_of_le hlt (hmin j (by omega))
    · refine ⟨i, by omega, by rw [if_neg hlt], ?_, hstrict⟩
      intro j hj
      rcases Nat.lt_or_ge j (n + 1) with hj' | hj'
      · exact hmin j (by omega)
      · have : j = 1 + n := by omega
        rw [this]
        exact le_of_not_lt hlt

/-- Claim C4: `kmeans` performs `nInit` runs with seeds
`seed, seed + 101, seed + 2·101, …` and returns exactly the run of
minimum inertia, ties resolved in favour of the earliest start index
(being a pure function, the result is thereby a deterministic function
of `(matrix, K, seed, nInit, maxIter)`). -/
theorem kmeans_multistart (mat : List (List ℚ)) (K maxIter seed nInit : ℕ)
    (r : ℕ → Run1) (hn : 1 ≤ nInit) (hmat : mat ≠ [])
    (hr : ∀ t, t < nInit →
      runOnce (mat.headD []).length mat K maxIter (seed + t * 101) = some (r t)) :
    ∃ i, i < nInit ∧
      kmeans mat K maxIter seed nInit =
        some { labels := (r i).labels, centroids := (r i).centers,
               inertia := (r i).inertia } ∧
      (∀ j, j < nInit → (r i).inertia ≤ (r j).inertia) ∧
      (∀ j, j < i → (r i).inertia < (r j).inertia) := by
  obtain ⟨row0, rest, rfl⟩ := List.exists_cons_of_ne_nil hmat
  have hD : ((row0 :: rest).headD []).length = row0.length := rfl
  have h0 : runOnce row0.length (row0 :: rest) K maxIter (seed + 0 * 101)
      = some (r 0) := by rw [← hD]; exact hr 0 hn
  rw [Nat.zero_mul, Nat.add_zero] at h0
  obtain ⟨i, hi, heq, hmin, hstrict⟩ := foldl_pick_argmin r (nInit - 1)
  refine ⟨i, by omega, ?_, fun j hj => hmin j (by omega),
    fun j hj => hstrict j hj⟩
  rw [kmeans]
  have hget : (row0 :: rest).get? 0 = some row0 := rfl
  rw [hget, Option.some_bind]
  simp only
  rw [h0, Option.some_bind,
    multiStart_eq_foldl (row0 :: rest) K row0.length maxIter seed r _ _
      (fun t ht => by
        rw [← hD]
        exact hr t (by
          rcases List.mem_range'_1.mp ht with ⟨h1, h2⟩
          omega)),
    heq]
  rfl

/-- Claim C4 (witness): concrete two-start run on a 2-row matrix; both
starts produce the same result, so the earliest (index 0) is returned. -/
theorem kmeans_multistart_witness :
    kmeans [[(0 : ℚ)], [(2 : ℚ)]] 2 30 1 2 =
      some { labels := [0, 1], centroids := [[(0 : ℚ)], [(2 : ℚ)]],
             inertia := 0 } := by
  obtain ⟨i, -, heq, -, -⟩ :=
    kmeans_multistart [[(0 : ℚ)], [(2 : ℚ)]] 2 30 1 2
      (fun _ => { labels := [0, 1], centers := [[(0 : ℚ)], [(2 : ℚ)]],
                  inertia := 0 })
      (by decide) (by decide)
      (fun t ht => by
        match t, ht with
        | 0, _ => with_unfolding_all rfl
        | 1, _ => with_unfolding_all rfl)
  exact heq

/-! ### Claim C6: assignment optimality after convergence -/

/-- Pure version of one `assignScan` step (used when the centroid read
is in range). -/
def assignStep (D : ℕ) (centers : List (List ℚ)) (row : List ℚ)
    (st : ℕ × Option ℚ) (c : ℕ) : ℕ × Option ℚ :=
  let d := dist2 D row (centers.getD c [])
  match st.2 with
  | none => (c, some d)
  | some bd => if d < bd then (c, some d) else st

theorem foldlM_eq_foldl_of_some {σ : Type} (f : σ → ℕ → Option σ)
    (g : σ → ℕ → σ) (l : List ℕ)
    (hfg : ∀ st c, c ∈ l → f st c = some (g st c)) :
    ∀ st, l.foldlM f st = some (l.foldl g st) := by
  induction l with
  | nil => intro st; rfl
  | cons x xs ih =>
    intro st
    simp only [List.foldlM_cons, hfg st x (List.mem_cons_self x xs),
      Option.bind_eq_bind, Option.some_bind, List.foldl_cons]
    exact ih (fun st c hc => hfg st c (List.mem_cons_of_mem x hc)) (g st x)

theorem assignScan_eq_step {D : ℕ} {centers : List (List ℚ)} {row : List ℚ}
    {c : ℕ} (hc : c < centers.length) (st : ℕ × Option ℚ) :
    assignScan D centers row st c = some (assignStep D centers row st c) := by
  have h1 : centers.get? c = some (centers.getD c []) := by
    simp [List.get?_eq_getElem?, List.getD_eq_getElem?_getD,
      List.getElem?_eq_getElem hc]
  rw [assignScan, h1]
  rfl

theorem assignFold_spec (D : ℕ) (centers : List (List ℚ)) (row : List ℚ) :
    ∀ K : ℕ, 1 ≤ K →
      ∃ b bv,
        (List.range K).foldl (assignStep D centers row) (0, none) = (b, some bv) ∧
        b < K ∧ bv = dist2 D row (centers.getD b []) ∧
        ∀ c, c < K → bv ≤ dist2 D row (centers.getD c []) := by
  intro K
  induction K with
  | zero => omega
  | succ K ih =>
    intro _
    by_cases hK : K = 0
    · subst hK
      refine ⟨0, dist2 D row (centers.getD 0 []), rfl, Nat.zero_lt_one, rfl, ?_⟩
      intro c hc
      interval_cases c
      exact le_rfl
    · obtain ⟨b, bv, heq, hb, hbv, hmin⟩ := ih (by omega)
      rw [List.range_succ, List.foldl_append, List.foldl_cons, List.foldl_nil,
        heq]
      simp only [assignStep]
      by_cases hlt : dist2 D row (centers.getD K []) < bv
      · rw [if_pos hlt]
        refine ⟨K, _, rfl, Nat.lt_succ_self K, rfl, ?_⟩
        intro c hc
        rcases Nat.lt_or_ge c K with h | h
        · exact le_of_lt (lt_of_lt_of_le hlt (hmin c h))
        · have hcK : c = K := by omega
          subst hcK
          exact le_rfl
      · rw [if_neg hlt]
        refine ⟨b, bv, rfl, Nat.lt_succ_of_lt hb, hbv, ?_⟩
        intro c hc
        rcases Nat.lt_or_ge c K with h | h
        · exact hmin c h
        · have hcK : c = K := by omega
          subst hcK
          exact le_of_not_lt hlt

theorem assignRow_some_spec {D K : ℕ} {centers : List (List ℚ)}
    {row : List ℚ} {b : ℕ} (h : assignRow D K centers row = some b) :
    ∀ c, c < K →
      dist2 D row (centers.getD b []) ≤ dist2 D row (centers.getD c []) := by
  have hlen : K ≤ centers.length := by
    by_contra hlt
    rw [assignRow_none row (by omega)] at h
    cases h
  cases K with
  | zero => exact fun c hc => absurd hc (Nat.not_lt_zero c)
  | succ K =>
    obtain ⟨b', bv, heq, hb, hbv, hmin⟩ :=
      assignFold_spec D centers row (K + 1) (by omega)
    have hrow : assignRow D (K + 1) centers row = some b' := by
      rw [assignRow, foldlM_eq_foldl_of_some _ (assignStep D centers row) _
        (fun st c hc =>
          assignScan_eq_step (lt_of_lt_of_le (List.mem_range.mp hc) hlen) st),
        heq]
      rfl
    rw [hrow] at h
    injection h with hb'
    subst hb'
    exact fun c hc => hbv ▸ hmin c hc

theorem assignAll_spec {D K : ℕ} {centers : List (List ℚ)} :
    ∀ {mat : List (List ℚ)} {ls : List ℕ},
      assignAll D K centers mat = some ls →
      ls.length = mat.length ∧
      ∀ i, i < mat.length →
        assignRow D K centers (mat.getD i []) = some (ls.getD i 0) := by
  intro mat
  induction mat with
  | nil =>
    intro ls h
    rw [assignAll] at h
    injection h with h'
    subst h'
    exact ⟨rfl, fun i hi => absurd hi (by simp)⟩
  | cons row rest ih =>
    intro ls h
    rw [assignAll] at h
    cases hr : assignRow D K centers row with
    | none => rw [hr] at h; cases h
    | some b =>
      rw [hr, Option.some_bind] at h
      cases hrest : assignAll D K centers rest with
      | none => rw [hrest] at h; cases h
      | some bs =>
        rw [hrest] at h
        injection h with h'
        subst h'
        obtain ⟨hlen, hpt⟩ := ih hrest
        refine ⟨by simp [hlen], ?_⟩
        intro i hi
        cases i with
        | zero => simpa using hr
        | succ i => simpa using hpt i (by simpa using hi)

theorem stepAssign_some {D K : ℕ} {mat centers : List (List ℚ)}
    {labels ls : List ℕ} {ch : Bool}
    (h : stepAssign D K mat centers labels = some (ls, ch)) :
    assignAll D K centers mat = some ls ∧ ch = decide (ls ≠ labels) := by
  rw [stepAssign] at h
  cases ha : assignAll D K centers mat with
  | none => rw [ha] at h; cases h
  | some ls' =>
    rw [ha] at h
    injection h with h'
    rw [Prod.mk.injEq] at h'
    obtain ⟨rfl, rfl⟩ := h'
    exact ⟨rfl, rfl⟩

theorem stepAssign_unchanged {D K : ℕ} {mat centers : List (List ℚ)}
    {labels ls : List ℕ}
    (h : stepAssign D K mat centers labels = some (ls, false)) : ls = labels := by
  obtain ⟨-, hch⟩ := stepAssign_some h
  have := of_decide_eq_false hch.symm
  exact not_not.mp this

theorem stepAssign_optimal {D K : ℕ} {mat centers : List (List ℚ)}
    {labels ls : List ℕ} {ch : Bool}
    (h : stepAssign D K mat centers labels = some (ls, ch)) :
    ∀ i, i < mat.length → ∀ c, c < K →
      dist2 D (mat.getD i []) (centers.getD (ls.getD i 0) []) ≤
        dist2 D (mat.getD i []) (centers.getD c []) := by
  obtain ⟨ha, -⟩ := stepAssign_some h
  obtain ⟨-, hpt⟩ := assignAll_spec ha
  intro i hi c hc
  exact assignRow_some_spec (hpt i hi) c hc

theorem stepUpdate_idem (D K : ℕ) (mat : List (List ℚ)) (ls : List ℕ)
    (csAnte : List (List ℚ)) :
    stepUpdate D K mat ls (stepUpdate D K mat ls csAnte) =
      stepUpdate D K mat ls csAnte := by
  conv_lhs => rw [stepUpdate]
  conv_rhs => rw [stepUpdate]
  apply List.map_congr_left
  intro c hc
  by_cases h0 : clusterCount ls c = 0
  · rw [if_pos h0, if_pos h0, stepUpdate,
      getD_map_range _ (List.mem_range.mp hc), if_pos h0]
  · rw [if_neg h0, if_neg h0]

theorem kmLoop_converged_optimal (D K : ℕ) (mat : List (List ℚ)) :
    ∀ (fuel : ℕ) (cs : List (List ℚ)) (ls : List ℕ) (csAnte : List (List ℚ)),
      cs = stepUpdate D K mat ls csAnte →
      ∀ csF lsF, kmLoop D K mat fuel cs ls = some (csF, lsF, true) →
      ∀ i, i < mat.length → ∀ c, c < K →
        dist2 D (mat.getD i []) (csF.getD (lsF.getD i 0) []) ≤
          dist2 D (mat.getD i []) (csF.getD c []) := by
  intro fuel
  induction fuel with
  | zero =>
    intro cs ls csAnte hcs csF lsF hloop
    rw [kmLoop] at hloop
    injection hloop with h'
    rw [Prod.mk.injEq, Prod.mk.injEq] at h'
    cases h'.2.2
  | succ fuel ih =>
    intro cs ls csAnte hcs csF lsF hloop i hi c hc
    rw [kmLoop] at hloop
    cases hsa : stepAssign D K mat cs ls with
    | none => rw [hsa] at hloop; cases hloop
    | some p =>
      obtain ⟨ls₁, ch⟩ := p
      rw [hsa, Option.some_bind] at hloop
      cases ch with
      | true =>
        simp only [if_pos] at hloop
        exact ih (stepUpdate D K mat ls₁ cs) ls₁ cs rfl csF lsF hloop i hi c hc
      | false =>
        simp only [Bool.false_eq_true, if_neg, reduceIte] at hloop
        injection hloop with h'
        rw [Prod.mk.injEq, Prod.mk.injEq] at h'
        obtain ⟨hcsF, hlsF, -⟩ := h'
        have hunch : ls₁ = ls := stepAssign_unchanged hsa
        subst hunch
        have hfix : stepUpdate D K mat ls₁ cs = cs := by
          rw [hcs]
          exact stepUpdate_idem D K mat ls₁ csAnte
        rw [← hcsF, hfix, ← hlsF]
        exact stepAssign_optimal hsa i hi c hc

/-- Claim C6 (amended): if a run's loop exits by convergence (no label
changed) and the first assignment pass did change at least one label,
then every row's final label minimizes squared distance to the returned
centroid set.  (A run that already converges on its very first pass can
violate this: the final update step may still move a centroid.) -/
theorem runOnce_converged_optimal (mat : List (List ℚ))
    (K D maxIter seed : ℕ) (csF : List (List ℚ)) (lsF ls1 : List ℕ)
    (hrun : runOnceFull D mat K maxIter seed = some (csF, lsF, true))
    (hfirst : stepAssign D K mat (initialCenters mat K seed)
      (List.replicate mat.length 0) = some (ls1, true)) :
    ∀ i, i < mat.length → ∀ c, c < K →
      dist2 D (mat.getD i []) (csF.getD (lsF.getD i 0) []) ≤
        dist2 D (mat.getD i []) (csF.getD c []) := by
  rw [runOnceFull] at hrun
  cases maxIter with
  | zero =>
    rw [kmLoop] at hrun
    injection hrun with h'
    rw [Prod.mk.injEq, Prod.mk.injEq] at h'
    cases h'.2.2
  | succ m =>
    rw [kmLoop, hfirst, Option.some_bind] at hrun
    simp only [if_pos] at hrun
    exact kmLoop_converged_optimal D K mat m
      (stepUpdate D K mat ls1 (initialCenters mat K seed)) ls1
      (initialCenters mat K seed) rfl csF lsF hrun

/-- Claim C6 (counterexample): on `[[0],[0],[3]]` with `K = 2` and seed
2 the shuffle makes both initial centroids `[0]`, so the very first
assignment pass changes no label and the loop exits converged after one
iteration; the update of that same iteration still moves centroid 0 to
the global mean `[1]` while empty cluster 1 keeps the stale `[0]`.  In
the returned result row 0 carries label 0 although centroid 1 is
strictly closer. -/
theorem runOnce_converged_not_optimal_counterexample :
    runOnceFull 1 [[(0 : ℚ)], [(0 : ℚ)], [(3 : ℚ)]] 2 30 2 =
      some ([[(1 : ℚ)], [(0 : ℚ)]], [0, 0, 0], true) ∧
    ¬ (dist2 1 ([[(0 : ℚ)], [(0 : ℚ)], [(3 : ℚ)]].getD 0 [])
        ([[(1 : ℚ)], [(0 : ℚ)]].getD ([0, 0, 0].getD 0 0) []) ≤
       dist2 1 ([[(0 : ℚ)], [(0 : ℚ)], [(3 : ℚ)]].getD 0 [])
        ([[(1 : ℚ)], [(0 : ℚ)]].getD 1 [])) := by
  constructor
  · with_unfolding_all rfl
  · with_unfolding_all decide

/-- Claim C6 (witness for the amended theorem): a converged 2-row run
whose first assignment pass did change a label; the returned labels are
optimal, instantiated at row 0 and centroid 1. -/
theorem runOnce_converged_optimal_witness :
    dist2 1 ([[(0 : ℚ)], [(2 : ℚ)]].getD 0 [])
      ([[(0 : ℚ)], [(2 : ℚ)]].getD ([0, 1].getD 0 0) []) ≤
    dist2 1 ([[(0 : ℚ)], [(2 : ℚ)]].getD 0 [])
      ([[(0 : ℚ)], [(2 : ℚ)]].getD 1 []) :=
  runOnce_converged_optimal [[(0 : ℚ)], [(2 : ℚ)]] 2 1 30 1
    [[(0 : ℚ)], [(2 : ℚ)]] [0, 1] [0, 1]
    (by with_unfolding_all rfl) (by with_unfolding_all rfl)
    0 (by decide) 1 (by decide)

/-! ### K-selection policy (`autoCluster`, lines 289–303) -/

/-- The three selection methods (`selectionMethod`). -/
inductive SelectionMethod where
  | silhouette
  | elbow
  | compromise
deriving DecidableEq, Repr

/-- Computation of `finalK` in `autoCluster` from the sweep signals:
`silhouette` picks `bestBySil`, `elbow` picks `suggestedK`, and
`compromise` takes the smaller of the two when they are within 1,
otherwise `bestBySil` exactly when its silhouette beats the elbow's by
at least `minGap`. -/
def selectFinalK (method : SelectionMethod) (ks : List ℤ) (sil : List ℚ)
    (minGap : ℚ) (suggestedK bestBySil : ℤ) : ℤ :=
  match method with
  | .silhouette => bestBySil
  | .elbow => suggestedK
  | .compromise =>
    let idxEl := ks.indexOf suggestedK
    let idxSi := ks.indexOf bestBySil
    let silEl := sil.getD idxEl 0
    let silBest := sil.getD idxSi 0
    if |suggestedK - bestBySil| ≤ 1 then min suggestedK bestBySil
    else if silBest - silEl ≥ minGap then bestBySil else suggestedK

/-- Claim C3: under the `compromise` method, if
`|suggestedK − bestBySilhouette| ≤ 1` then `finalK` is their minimum;
otherwise `finalK = bestBySilhouette` exactly when the silhouette gap
(read off the sweep arrays at the positions of the two K values)
reaches `minGap`, and `finalK = suggestedK` otherwise. -/
theorem compromise_policy (ks : List ℤ) (sil : List ℚ) (minGap : ℚ)
    (sK bK : ℤ) (hg : 0 ≤ minGap) :
    (|sK - bK| ≤ 1 →
      selectFinalK .compromise ks sil minGap sK bK = min sK bK) ∧
    (1 < |sK - bK| →
      ((selectFinalK .compromise ks sil minGap sK bK = bK ↔
          sil.getD (ks.indexOf bK) 0 - sil.getD (ks.indexOf sK) 0 ≥ minGap) ∧
        (sil.getD (ks.indexOf bK) 0 - sil.getD (ks.indexOf sK) 0 < minGap →
          selectFinalK .compromise ks sil minGap sK bK = sK))) := by
  constructor
  · intro h
    simp only [selectFinalK, if_pos h]
  · intro h
    have hne : ¬ (|sK - bK| ≤ 1) := not_le.mpr h
    have hKne : sK ≠ bK := by
      intro hEq
      rw [hEq, sub_self, abs_zero] at h
      exact absurd h (by norm_num)
    constructor
    · constructor
      · intro hres
        by_contra hgap
        have hlt : sil.getD (ks.indexOf bK) 0 - sil.getD (ks.indexOf sK) 0
            < minGap := not_le.mp hgap
        rw [selectFinalK] at hres
        simp only [if_neg hne, if_neg (not_le.mpr hlt)] at hres
        exact hKne hres
      · intro hgap
        rw [selectFinalK]
        simp only [if_neg hne, if_pos hgap]
    · intro hlt
      rw [selectFinalK]
      simp only [if_neg hne, if_neg (not_le.mpr hlt)]

/-- Claim C3 (witness): the spec's scenario `suggestedK = 4`,
`bestBySilhouette = 5` under `compromise` yields `min 4 5 = 4` for the
sweep `ks = 2..10`. -/
theorem compromise_policy_witness :
    selectFinalK .compromise [2, 3, 4, 5, 6, 7, 8, 9, 10]
      [0, 0, 1/10, 2/10, 0, 0, 0, 0, 0] (1/20) 4 5 = min 4 5 :=
  (compromise_policy [2, 3, 4, 5, 6, 7, 8, 9, 10]
    [0, 0, 1/10, 2/10, 0, 0, 0, 0, 0] (1/20) 4 5 (by norm_num)).1 (by decide)

/-! ### Recommendation ranking (`rankCategories`, `recommendForMember`) -/

/-- The fixed category order (`CATEGORY_NAMES`). -/
def CATEGORY_NAMES : List String :=
  ["Transportation", "Health", "LuxuryGoods", "Service",
   "Telecommunications", "Groceries", "Clothing", "Food&Beverage",
   "PublicUtilities", "Others"]

/-- `rankCategories`: pair each score with its category name and sort by
descending score.  `Array.prototype.sort` with comparator
`(a, b) => b.s - a.s` is a stable descending sort (ES2019), modelled by
the stable `insertionSort` with relation `a.2 ≥ b.2`. -/
def rankCategories (scores : List ℚ) : List (String × ℚ) :=
  List.insertionSort (fun a b => a.2 ≥ b.2)
    (scores.enum.map fun p => (CATEGORY_NAMES.getD p.1 "", p.2))

/-- `recommendForMember`: validation throws become `Except.error`; the
threshold filter falls back to the full ranking when it empties. -/
def recommendForMember (mat : List (List ℚ)) (memberIndex : ℤ) (topK : ℕ)
    (minThreshold : ℚ) : Except String (List (String × ℚ)) :=
  if mat.length = 0 then Except.error "Matrix is empty"
  else if (mat.headD []).length ≠ 10 then Except.error "Expected 10 columns"
  else if memberIndex < 0 ∨ (mat.length : ℤ) ≤ memberIndex then
    Except.error "memberIndex out of range"
  else
    let scores := mat.getD memberIndex.toNat []
    let ranked := rankCategories scores
    let filtered := ranked.filter fun r => r.2 ≥ minThreshold
    let chosen := (if filtered.length ≠ 0 then filtered else ranked).take topK
    Except.ok chosen

/-- Claim C7 (counterexample): a matrix whose rows do NOT all have
dimension 10 (row 1 has 3 entries) is not rejected: only the first
row's length is checked, and `recommendForMember` happily computes a
recommendation from the short row. -/
theorem inconsistent_rows_not_rejected :
    recommendForMember [[(1 : ℚ), 1, 1, 1, 1, 1, 1, 1, 1, 1], [1, 2, 3]] 1 3 0 =
      Except.ok [("LuxuryGoods", 3), ("Health", 2), ("Transportation", 1)] := by
  with_unfolding_all rfl

/-- Claim C7 (amended): the validation rejects an empty matrix and a
matrix whose FIRST row is not of dimension 10, before any computation;
rows beyond the first are never checked, and `kmeans` itself performs
no such validation at all (an empty matrix simply makes its `mat[0]`
read fail rather than produce an InvalidInput rejection). -/
theorem validation_checks_first_row_only (mat : List (List ℚ)) (idx : ℤ)
    (topK : ℕ) (thr : ℚ) :
    (mat = [] → recommendForMember mat idx topK thr =
      Except.error "Matrix is empty") ∧
    (mat ≠ [] → (mat.headD []).length ≠ 10 →
      recommendForMember mat idx topK thr =
        Except.error "Expected 10 columns") ∧
    (∀ K maxIter seed nInit : ℕ, kmeans [] K maxIter seed nInit = none) := by
  refine ⟨?_, ?_, ?_⟩
  · intro h
    subst h
    rfl
  · intro hne h10
    have hlen : mat.length ≠ 0 := fun h => hne (List.length_eq_zero.mp h)
    rw [recommendForMember, if_neg hlen, if_pos h10]
  · intro K maxIter seed nInit
    rfl

/-- Claim C7 (witness): concrete instances of the two rejections. -/
theorem validation_checks_first_row_only_witness :
    recommendForMember [[(1 : ℚ), 2]] 0 3 0 =
      Except.error "Expected 10 columns" :=
  (validation_checks_first_row_only [[(1 : ℚ), 2]] 0 3 0).2.1 (by decide)
    (by decide)

theorem enum_snd_mem {α : Type} {l : List α} {p : ℕ × α} (h : p ∈ l.enum) :
    p.2 ∈ l := by
  obtain ⟨i, a⟩ := p
  rw [List.enum_eq_zip_range] at h
  exact (List.of_mem_zip h).2

/-- Claim C10: when no category score of the member reaches
`minThreshold`, the filter empties and `recommendForMember` silently
falls back to the full descending ranking, returning its first `topK`
entries — a non-empty list whose scores are all below the threshold. -/
theorem recommend_threshold_fallback (mat : List (List ℚ)) (memberIndex : ℤ)
    (topK : ℕ) (minThreshold : ℚ)
    (hrows : ∀ r ∈ mat, r.length = 10)
    (h0 : 0 ≤ memberIndex) (hN : memberIndex < (mat.length : ℤ))
    (htop : 1 ≤ topK)
    (hthr : ∀ s ∈ mat.getD memberIndex.toNat [], s < minThreshold) :
    recommendForMember mat memberIndex topK minThreshold =
      Except.ok ((rankCategories (mat.getD memberIndex.toNat [])).take topK) ∧
    (rankCategories (mat.getD memberIndex.toNat [])).take topK ≠ [] := by
  have hlen0 : mat.length ≠ 0 := by omega
  have hidx : memberIndex.toNat < mat.length := by omega
  have hmem : mat.getD memberIndex.toNat [] ∈ mat := by
    rw [List.getD_eq_getElem mat [] hidx]
    exact List.getElem_mem hidx
  have hslen : (mat.getD memberIndex.toNat []).length = 10 := hrows _ hmem
  have hmatne : mat ≠ [] := fun h => hlen0 (by rw [h]; rfl)
  have hhead : (mat.headD []).length = 10 := by
    obtain ⟨x, xs, rfl⟩ := List.exists_cons_of_ne_nil hmatne
    exact hrows x (List.mem_cons_self x xs)
  have hguard : ¬ (memberIndex < 0 ∨ (mat.length : ℤ) ≤ memberIndex) := by
    push_neg
    exact ⟨h0, hN⟩
  have hfilter : (rankCategories (mat.getD memberIndex.toNat [])).filter
      (fun r => decide (r.2 ≥ minThreshold)) = [] := by
    rw [List.filter_eq_nil_iff]
    intro p hp
    have hmemp : p ∈ (mat.getD memberIndex.toNat []).enum.map
        (fun q => (CATEGORY_NAMES.getD q.1 "", q.2)) :=
      ((List.perm_insertionSort _ _).mem_iff).mp hp
    obtain ⟨q, hq, rfl⟩ := List.mem_map.mp hmemp
    have hqs : q.2 ∈ mat.getD memberIndex.toNat [] := enum_snd_mem hq
    simp only [decide_eq_true_eq]
    exact not_le.mpr (hthr q.2 hqs)
  have hrlen : (rankCategories (mat.getD memberIndex.toNat [])).length = 10 := by
    rw [rankCategories, (List.perm_insertionSort _ _).length_eq,
      List.length_map, List.enum_length, hslen]
  constructor
  · rw [recommendForMember, if_neg hlen0, if_neg (not_not_intro hhead),
      if_neg hguard]
    simp only [hfilter, List.length_nil, ne_eq, not_true_eq_false, if_false,
      reduceIte]
  · intro hnil
    rcases List.take_eq_nil_iff.mp hnil with h | h
    · omega
    · rw [h] at hrlen
      simp at hrlen

/-- Claim C10 (witness): every score of the single member is below the
threshold 5, yet the top-2 of the full ranking is returned. -/
theorem recommend_threshold_fallback_witness :
    recommendForMember [[(3 : ℚ), 1, 2, 0, 0, 0, 0, 0, 0, 0]] 0 2 5 =
      Except.ok ((rankCategories
        ([[(3 : ℚ), 1, 2, 0, 0, 0, 0, 0, 0, 0]].getD (0 : ℤ).toNat [])).take 2) ∧
    (rankCategories
      ([[(3 : ℚ), 1, 2, 0, 0, 0, 0, 0, 0, 0]].getD (0 : ℤ).toNat [])).take 2 ≠ [] :=
  recommend_threshold_fallback [[(3 : ℚ), 1, 2, 0, 0, 0, 0, 0, 0, 0]] 0 2 5
    (by with_unfolding_all decide) (by decide) (by decide) (by decide)
    (by with_unfolding_all decide)

/-! ### Silhouette approximation (`silhouetteApprox`, lines 2415–2437)

The silhouette uses `Math.sqrt`, so this part of the embedding lives in
`ℝ` (exact real arithmetic, `Real.sqrt` for `Math.sqrt`). -/

/-- The local `dist` helper of `silhouetteApprox`: Euclidean distance
over the first `D` coordinates. -/
noncomputable def distR (D : ℕ) (a b : List ℝ) : ℝ :=
  Real.sqrt (((List.range D).map fun d =>
    let dd := a.getD d 0 - b.getD d 0
    dd * dd).sum)

/-- The inner loop computing `b`: the minimum distance from `row` to a
centroid other than `own`.  `none` models the sentinel `b = Infinity`
(which survives only when there is no other centroid). -/
noncomputable def nearestOther (D : ℕ) (centroids : List (List ℝ))
    (own : ℕ) (row : List ℝ) : Option ℝ :=
  (List.range centroids.length).foldl (fun b c =>
    if c = own then b
    else
      let d := distR D row (centroids.getD c [])
      match b with
      | none => some d
      | some bv => if d < bv then some d else some bv) none

/-- One row's silhouette score
`(b - a) / Math.max(a, b || 1)` — note that `b || 1` replaces `b` by 1
only when `b` is `0`.  In the `none` case (no other centroid) the
source divides `Infinity` by `Infinity`, yielding `NaN`; that case is
unreachable for `K ≥ 2` and modelled by the junk value `0`. -/
noncomputable def rowScore (D : ℕ) (centroids : List (List ℝ))
    (row : List ℝ) (own : ℕ) : ℝ :=
  let a := distR D row (centroids.getD own [])
  match nearestOther D centroids own row with
  | some b => (b - a) / max a (if b = 0 then 1 else b)
  | none => 0

/-- `silhouetteApprox(mat, labels, centroids)`: mean of the per-row
scores (0 for an empty matrix). -/
noncomputable def silhouetteApprox (mat : List (List ℝ)) (labels : List ℕ)
    (centroids : List (List ℝ)) : ℝ :=
  if mat.length = 0 then 0
  else
    (((mat.zip labels).map fun p =>
      rowScore (mat.headD []).length centroids p.1 p.2).sum) / (mat.length : ℝ)

/-- The distances from `row` to every centroid other than `own`
(in centroid order). -/
noncomputable def otherDists (D : ℕ) (centroids : List (List ℝ))
    (own : ℕ) (row : List ℝ) : List ℝ :=
  ((List.range centroids.length).filter fun c => c ≠ own).map fun c =>
    distR D row (centroids.getD c [])

/-- Modelled from the spec's words (§4.5): per-row score
`(b − a) / max(a, b, ε)` with `ε = 1`, `a` the distance to the own
centroid and `b` the minimum distance to any other centroid. -/
noncomputable def specRowScore (D : ℕ) (centroids : List (List ℝ))
    (row : List ℝ) (own : ℕ) : ℝ :=
  let a := distR D row (centroids.getD own [])
  let b := (otherDists D centroids own row).min?.getD 0
  (b - a) / max a (max b 1)

/-- Modelled from the spec's words: overall score = arithmetic mean of
`specRowScore` over all rows. -/
noncomputable def silhouetteSpec (mat : List (List ℝ)) (labels : List ℕ)
    (centroids : List (List ℝ)) : ℝ :=
  if mat.length = 0 then 0
  else
    (((mat.zip labels).map fun p =>
      specRowScore (mat.headD []).length centroids p.1 p.2).sum)
      / (mat.length : ℝ)

/-- The amended per-row score: denominator `max(a, b)` with `b`
replaced by 1 only when `b = 0` (the source's `b || 1`). -/
noncomputable def specRowScoreFixed (D : ℕ) (centroids : List (List ℝ))
    (row : List ℝ) (own : ℕ) : ℝ :=
  let a := distR D row (centroids.getD own [])
  let b := (otherDists D centroids own row).min?.getD 0
  (b - a) / max a (if b = 0 then 1 else b)

/-- The amended overall score: mean of the amended per-row scores. -/
noncomputable def silhouetteSpecFixed (mat : List (List ℝ)) (labels : List ℕ)
    (centroids : List (List ℝ)) : ℝ :=
  if mat.length = 0 then 0
  else
    (((mat.zip labels).map fun p =>
      specRowScoreFixed (mat.headD []).length centroids p.1 p.2).sum)
      / (mat.length : ℝ)

theorem foldl_skip_eq_filter {α : Type} (own : ℕ) (g h : α → ℕ → α)
    (hgh : ∀ b c, c ≠ own → g b c = h b c) (hskip : ∀ b, g b own = b) :
    ∀ (l : List ℕ) (b : α),
      l.foldl g b = ((l.filter fun c => c ≠ own).foldl h b) := by
  intro l
  induction l with
  | nil => intro b; rfl
  | cons x xs ih =>
    intro b
    by_cases hx : x = own
    · subst hx
      rw [List.foldl_cons, hskip b, List.filter_cons, if_neg (by simp)]
      exact ih b
    · rw [List.foldl_cons, hgh b x hx, List.filter_cons,
        if_pos (by simp [hx]), List.foldl_cons]
      exact ih (h b x)

theorem optionMin_foldl_some (xs : List ℝ) :
    ∀ x : ℝ, xs.foldl (fun b d =>
        match b with
        | none => some d
        | some bv => if d < bv then some d else some bv) (some x) =
      some (xs.foldl min x) := by
  induction xs with
  | nil => intro x; rfl
  | cons y ys ih =>
    intro x
    rw [List.foldl_cons, List.foldl_cons]
    have hmin : (if y < x then some y else some x) = some (min x y) := by
      rcases lt_or_ge y x with h | h
      · rw [if_pos h, min_eq_right (le_of_lt h)]
      · rw [if_neg (not_lt.mpr h), min_eq_left h]
    show ys.foldl _ (if y < x then some y else some x) = _
    rw [hmin]
    exact ih (min x y)

theorem nearestOther_eq (D : ℕ) (cents : List (List ℝ)) (own : ℕ)
    (row : List ℝ) :
    nearestOther D cents own row =
      (otherDists D cents own row).foldl (fun b d =>
        match b with
        | none => some d
        | some bv => if d < bv then some d else some bv) none := by
  rw [nearestOther, otherDists, List.foldl_map]
  exact foldl_skip_eq_filter own
    (fun b c =>
      if c = own then b
      else
        let d := distR D row (cents.getD c [])
        match b with
        | none => some d
        | some bv => if d < bv then some d else some bv)
    (fun b c =>
      match b with
      | none => some (distR D row (cents.getD c []))
      | some bv =>
        if distR D row (cents.getD c []) < bv
        then some (distR D row (cents.getD c [])) else some bv)
    (fun b c hc => by simp only [if_neg hc])
    (fun b => by simp) (List.range cents.length) none

theorem otherDists_ne_nil {D : ℕ} {cents : List (List ℝ)} {own : ℕ}
    {row : List ℝ} (h2 : 2 ≤ cents.length) :
    otherDists D cents own row ≠ [] := by
  rw [otherDists]
  intro hnil
  rw [List.map_eq_nil_iff] at hnil
  by_cases hown : own = 0
  · have hmem : 1 ∈ (List.range cents.length).filter fun c => c ≠ own := by
      rw [List.mem_filter]
      refine ⟨List.mem_range.mpr (by omega), by simp [hown]⟩
    rw [hnil] at hmem
    exact absurd hmem (List.not_mem_nil 1)
  · have hmem : 0 ∈ (List.range cents.length).filter fun c => c ≠ own := by
      rw [List.mem_filter]
      refine ⟨List.mem_range.mpr (by omega), by simp [Ne.symm hown]⟩
    rw [hnil] at hmem
    exact absurd hmem (List.not_mem_nil 0)

theorem rowScore_eq_fixed (D : ℕ) (cents : List (List ℝ)) (row : List ℝ)
    (own : ℕ) (h : otherDists D cents own row ≠ []) :
    rowScore D cents row own = specRowScoreFixed D cents row own := by
  obtain ⟨x, xs, hx⟩ := List.exists_cons_of_ne_nil h
  have hb : nearestOther D cents own row = some (xs.foldl min x) := by
    rw [nearestOther_eq, hx, List.foldl_cons]
    exact optionMin_foldl_some xs x
  rw [rowScore, specRowScoreFixed, hb, hx]
  rfl

/-- Claim C1 (amended): for a non-empty matrix, valid labels and at
least two centroids, `silhouetteApprox` returns the arithmetic mean of
the per-row scores `(b − a) / max(a, b')`, where `b'` is `b` unless
`b = 0`, in which case it is 1 (the source's `b || 1`) — not the spec's
`max(a, b, 1)`. -/
theorem silhouetteApprox_eq_specFixed (mat : List (List ℝ))
    (labels : List ℕ) (cents : List (List ℝ)) (hmat : mat ≠ [])
    (hlen : labels.length = mat.length)
    (hlab : ∀ l ∈ labels, l < cents.length) (hK : 2 ≤ cents.length) :
    silhouetteApprox mat labels cents = silhouetteSpecFixed mat labels cents := by
  rw [silhouetteApprox, silhouetteSpecFixed]
  by_cases h0 : mat.length = 0
  · rw [if_pos h0, if_pos h0]
  · rw [if_neg h0, if_neg h0]
    congr 1
    apply congrArg
    apply List.map_congr_left
    intro p hp
    exact rowScore_eq_fixed _ cents p.1 p.2 (otherDists_ne_nil hK)

theorem distR_half : distR 1 [(0 : ℝ)] [1 / 2] = 1 / 2 := by
  rw [distR]
  have h1 : (((List.range 1).map fun d =>
      let dd := [(0 : ℝ)].getD d 0 - [(1 / 2 : ℝ)].getD d 0
      dd * dd).sum) = (1 / 2 : ℝ) ^ 2 := by
    simp [List.range_succ]
    norm_num
  rw [h1, Real.sqrt_sq (by norm_num)]

theorem distR_threequarters : distR 1 [(0 : ℝ)] [3 / 4] = 3 / 4 := by
  rw [distR]
  have h1 : (((List.range 1).map fun d =>
      let dd := [(0 : ℝ)].getD d 0 - [(3 / 4 : ℝ)].getD d 0
      dd * dd).sum) = (3 / 4 : ℝ) ^ 2 := by
    simp [List.range_succ]
    norm_num
  rw [h1, Real.sqrt_sq (by norm_num)]

theorem nearestOther_counterexample_value :
    nearestOther 1 [[(1 / 2 : ℝ)], [3 / 4]] 0 [(0 : ℝ)] = some (3 / 4) := by
  rw [nearestOther_eq]
  have hOD : otherDists 1 [[(1 / 2 : ℝ)], [3 / 4]] 0 [(0 : ℝ)] = [3 / 4] := by
    rw [otherDists]
    have hfil : ((List.range ([[(1 / 2 : ℝ)], [3 / 4]] : List (List ℝ)).length).filter
        fun c => c ≠ 0) = [1] := by decide
    rw [hfil]
    simp only [List.map_cons, List.map_nil]
    rw [show ([[(1 / 2 : ℝ)], [3 / 4]].getD 1 []) = [(3 / 4 : ℝ)] from rfl,
      distR_threequarters]
  rw [hOD]
  rfl

theorem rowScore_counterexample_value :
    rowScore 1 [[(1 / 2 : ℝ)], [3 / 4]] [(0 : ℝ)] 0 = 1 / 3 := by
  rw [rowScore, nearestOther_counterexample_value]
  show (3 / 4 - distR 1 [(0 : ℝ)] ([[(1 / 2 : ℝ)], [3 / 4]].getD 0 [])) /
      max (distR 1 [(0 : ℝ)] ([[(1 / 2 : ℝ)], [3 / 4]].getD 0 []))
        (if (3 / 4 : ℝ) = 0 then 1 else 3 / 4) = 1 / 3
  rw [show ([[(1 / 2 : ℝ)], [3 / 4]].getD 0 []) = [(1 / 2 : ℝ)] from rfl,
    distR_half, if_neg (by norm_num : ¬ (3 / 4 : ℝ) = 0),
    max_eq_right (by norm_num : (1 / 2 : ℝ) ≤ 3 / 4)]
  norm_num

theorem specRowScore_counterexample_value :
    specRowScore 1 [[(1 / 2 : ℝ)], [3 / 4]] [(0 : ℝ)] 0 = 1 / 4 := by
  have hOD : otherDists 1 [[(1 / 2 : ℝ)], [3 / 4]] 0 [(0 : ℝ)] = [3 / 4] := by
    rw [otherDists]
    have hfil : ((List.range
        ([[(1 / 2 : ℝ)], [3 / 4]] : List (List ℝ)).length).filter
        fun c => c ≠ 0) = [1] := by decide
    rw [hfil]
    simp only [List.map_cons, List.map_nil]
    rw [show ([[(1 / 2 : ℝ)], [3 / 4]].getD 1 []) = [(3 / 4 : ℝ)] from rfl,
      distR_threequarters]
  rw [specRowScore, hOD]
  show (3 / 4 - distR 1 [(0 : ℝ)] ([[(1 / 2 : ℝ)], [3 / 4]].getD 0 [])) /
      max (distR 1 [(0 : ℝ)] ([[(1 / 2 : ℝ)], [3 / 4]].getD 0 []))
        (max (3 / 4) 1) = 1 / 4
  rw [show ([[(1 / 2 : ℝ)], [3 / 4]].getD 0 []) = [(1 / 2 : ℝ)] from rfl,
    distR_half, max_eq_right (by norm_num : (3 / 4 : ℝ) ≤ 1),
    max_eq_right (by norm_num : (1 / 2 : ℝ) ≤ 1)]
  norm_num

/-- Claim C1 (counterexample): on the one-row matrix `[[0]]` with
centroids `[[1/2], [3/4]]` and label 0, the source computes
`(3/4 − 1/2) / max(1/2, 3/4) = 1/3` (the 1-floor is applied to `b`
only when `b = 0`), while the claimed formula
`(b − a) / max(a, b, 1)` gives `1/4`. -/
theorem silhouette_formula_counterexample :
    silhouetteApprox [[(0 : ℝ)]] [0] [[1 / 2], [3 / 4]] ≠
      silhouetteSpec [[(0 : ℝ)]] [0] [[1 / 2], [3 / 4]] := by
  have hA : silhouetteApprox [[(0 : ℝ)]] [0] [[1 / 2], [3 / 4]] = 1 / 3 := by
    rw [silhouetteApprox, if_neg (by decide : ¬ ([[(0 : ℝ)]] : List (List ℝ)).length = 0)]
    show ([([(0 : ℝ)], 0)].map fun p =>
      rowScore 1 [[(1 / 2 : ℝ)], [3 / 4]] p.1 p.2).sum / ((1 : ℕ) : ℝ) = 1 / 3
    rw [List.map_cons, List.map_nil, rowScore_counterexample_value]
    norm_num
  have hB : silhouetteSpec [[(0 : ℝ)]] [0] [[1 / 2], [3 / 4]] = 1 / 4 := by
    rw [silhouetteSpec, if_neg (by decide : ¬ ([[(0 : ℝ)]] : List (List ℝ)).length = 0)]
    show ([([(0 : ℝ)], 0)].map fun p =>
      specRowScore 1 [[(1 / 2 : ℝ)], [3 / 4]] p.1 p.2).sum / ((1 : ℕ) : ℝ) = 1 / 4
    rw [List.map_cons, List.map_nil, specRowScore_counterexample_value]
    norm_num
  rw [hA, hB]
  norm_num

/-- Claim C1 (witness for the amended theorem): the same concrete input
satisfies the amended per-row formula. -/
theorem silhouetteApprox_eq_specFixed_witness :
    silhouetteApprox [[(0 : ℝ)]] [0] [[1 / 2], [3 / 4]] =
      silhouetteSpecFixed [[(0 : ℝ)]] [0] [[1 / 2], [3 / 4]] :=
  silhouetteApprox_eq_specFixed [[(0 : ℝ)]] [0] [[1 / 2], [3 / 4]]
    (List.cons_ne_nil _ _) rfl (by decide) (by decide)

/-! ### Claim C8: silhouette bound -/

theorem foldl_min_nonneg (xs : List ℝ) :
    ∀ x : ℝ, 0 ≤ x → (∀ y ∈ xs, 0 ≤ y) → 0 ≤ xs.foldl min x := by
  induction xs with
  | nil => intro x hx _; exact hx
  | cons y ys ih =>
    intro x hx hall
    rw [List.foldl_cons]
    exact ih (min x y) (le_min hx (hall y (List.mem_cons_self y ys)))
      fun z hz => hall z (List.mem_cons_of_mem y hz)

theorem nearestOther_nonneg {D : ℕ} {cents : List (List ℝ)} {own : ℕ}
    {row : List ℝ} {b : ℝ} (h : nearestOther D cents own row = some b) :
    0 ≤ b := by
  rw [nearestOther_eq] at h
  have hall : ∀ y ∈ otherDists D cents own row, 0 ≤ y := by
    intro y hy
    rw [otherDists] at hy
    obtain ⟨c, -, rfl⟩ := List.mem_map.mp hy
    exact Real.sqrt_nonneg _
  cases hOD : otherDists D cents own row with
  | nil => rw [hOD] at h; cases h
  | cons x xs =>
    rw [hOD, List.foldl_cons] at h
    rw [optionMin_foldl_some xs x] at h
    injection h with h'
    rw [← h']
    rw [hOD] at hall
    exact foldl_min_nonneg xs x (hall x (List.mem_cons_self x xs))
      fun z hz => hall z (List.mem_cons_of_mem x hz)

theorem rowScore_mem_unit (D : ℕ) (cents : List (List ℝ)) (row : List ℝ)
    (own : ℕ) :
    -1 ≤ rowScore D cents row own ∧ rowScore D cents row own ≤ 1 := by
  rw [rowScore]
  cases hb : nearestOther D cents own row with
  | none => norm_num
  | some b =>
    show -1 ≤ (b - distR D row (cents.getD own [])) /
        max (distR D row (cents.getD own [])) (if b = 0 then 1 else b) ∧
      (b - distR D row (cents.getD own [])) /
        max (distR D row (cents.getD own [])) (if b = 0 then 1 else b) ≤ 1
    have ha : 0 ≤ distR D row (cents.getD own []) := Real.sqrt_nonneg _
    have hbnn : 0 ≤ b := nearestOther_nonneg hb
    set a := distR D row (cents.getD own []) with hadef
    set q := max a (if b = 0 then 1 else b) with hq
    have hq0 : 0 < q := by
      by_cases h0 : b = 0
      · rw [hq, if_pos h0]
        exact lt_of_lt_of_le one_pos (le_max_right a 1)
      · rw [hq, if_neg h0]
        exact lt_of_lt_of_le (lt_of_le_of_ne hbnn (Ne.symm h0)) (le_max_right a b)
    have habs : |b - a| ≤ q := by
      rw [abs_le]
      constructor
      · have haq : a ≤ q := le_max_left _ _
        linarith
      · by_cases h0 : b = 0
        · rw [h0]
          linarith
        · have hbq : b ≤ q := by
            rw [hq, if_neg h0]
            exact le_max_right a b
          linarith
    have hdiv : |(b - a) / q| ≤ 1 := by
      rw [abs_div, abs_of_pos hq0]
      exact (div_le_one hq0).mpr habs
    exact abs_le.mp hdiv

theorem sum_bounds_of_unit (l : List ℝ) (h : ∀ x ∈ l, -1 ≤ x ∧ x ≤ 1) :
    -(l.length : ℝ) ≤ l.sum ∧ l.sum ≤ (l.length : ℝ) := by
  induction l with
  | nil => norm_num
  | cons x xs ih =>
    obtain ⟨h1, h2⟩ := h x (List.mem_cons_self x xs)
    obtain ⟨h3, h4⟩ := ih fun y hy => h y (List.mem_cons_of_mem x hy)
    rw [List.sum_cons, List.length_cons]
    push_cast
    constructor <;> linarith

/-- Claim C8: for a non-empty matrix, labels in range, and at least two
centroids (all of matrix dimension `D`), the silhouette approximation
lies in `[−1, 1]`. -/
theorem silhouetteApprox_bounded (mat : List (List ℝ)) (labels : List ℕ)
    (cents : List (List ℝ)) (hmat : mat ≠ [])
    (hlen : labels.length = mat.length)
    (hlab : ∀ l ∈ labels, l < cents.length) (hK : 2 ≤ cents.length)
    (hrows : ∀ r ∈ mat, r.length = (mat.headD []).length)
    (hcents : ∀ c ∈ cents, c.length = (mat.headD []).length) :
    -1 ≤ silhouetteApprox mat labels cents ∧
      silhouetteApprox mat labels cents ≤ 1 := by
  have hN0 : mat.length ≠ 0 := fun h => hmat (List.length_eq_zero.mp h)
  have hN : (0 : ℝ) < (mat.length : ℝ) := by
    have : 0 < mat.length := Nat.pos_of_ne_zero hN0
    exact_mod_cast this
  rw [silhouetteApprox, if_neg hN0]
  have hml : ∀ x ∈ (mat.zip labels).map fun p =>
      rowScore (mat.headD []).length cents p.1 p.2, -1 ≤ x ∧ x ≤ 1 := by
    intro x hx
    obtain ⟨p, -, rfl⟩ := List.mem_map.mp hx
    exact rowScore_mem_unit _ cents p.1 p.2
  obtain ⟨h1, h2⟩ := sum_bounds_of_unit _ hml
  have hlenle : ((((mat.zip labels).map fun p =>
      rowScore (mat.headD []).length cents p.1 p.2).length : ℕ) : ℝ)
      ≤ (mat.length : ℝ) := by
    rw [List.length_map, List.length_zip]
    exact_mod_cast min_le_left mat.length labels.length
  constructor
  · rw [le_div_iff hN]
    linarith
  · rw [div_le_one hN]
    linarith

/-- Claim C8 (witness): the bound at a concrete input. -/
theorem silhouetteApprox_bounded_witness :
    -1 ≤ silhouetteApprox [[(0 : ℝ)]] [0] [[1 / 2], [3 / 4]] ∧
      silhouetteApprox [[(0 : ℝ)]] [0] [[1 / 2], [3 / 4]] ≤ 1 :=
  silhouetteApprox_bounded [[(0 : ℝ)]] [0] [[1 / 2], [3 / 4]]
    (List.cons_ne_nil _ _) rfl (by decide) (by decide)
    (by intro r hr; rw [List.mem_singleton.mp hr]; rfl)
    (by
      intro c hc
      simp only [List.mem_cons, List.not_mem_nil, or_false] at hc
      rcases hc with rfl | rfl <;> rfl)

/-! ### Elbow locator (`suggestElbow`, lines 2525–2540) -/

/-- Perpendicular distance of the candidate point
`(ks[i], inertia[i])` to the line through the first and last sweep
points (the `num / den` computed inside the elbow loop; `den` is
`Math.sqrt(dx*dx + dy*dy) || 1`). -/
noncomputable def elbowPerpDist (ks : List ℤ) (inertia : List ℝ)
    (i : ℕ) : ℝ :=
  let x1 : ℝ := (ks.getD 0 0 : ℤ)
  let y1 := inertia.getD 0 0
  let x2 : ℝ := (ks.getD (ks.length - 1) 0 : ℤ)
  let y2 := inertia.getD (inertia.length - 1) 0
  let dx := x2 - x1
  let dy := y2 - y1
  let x0 : ℝ := (ks.getD i 0 : ℤ)
  let y0 := inertia.getD i 0
  let num := |dy * x0 - dx * y0 + x2 * y1 - y2 * x1|
  let den := if Real.sqrt (dx * dx + dy * dy) = 0 then 1
             else Real.sqrt (dx * dx + dy * dy)
  num / den

/-- `suggestElbow(ks, inertia)`: with fewer than 3 candidates (or
mismatched arrays) fall back to the middle candidate, otherwise scan
the interior candidates `i = 1 … ks.length − 2` and keep the first one
of strictly largest perpendicular distance (`bestD = -Infinity` is the
`none` sentinel). -/
noncomputable def suggestElbow (ks : List ℤ) (inertia : List ℝ) : ℤ :=
  if ks.length ≠ inertia.length ∨ ks.length < 3 then
    ks.getD (ks.length / 2) 0
  else
    ((List.range' 1 (ks.length - 2)).foldl (fun st i =>
      let d := elbowPerpDist ks inertia i
      match st.1 with
      | none => (some d, ks.getD i 0)
      | some bd => if d > bd then (some d, ks.getD i 0) else st)
      ((none : Option ℝ), ks.getD 0 0)).2

theorem elbow_fold_spec (ks : List ℤ) (inertia : List ℝ) :
    ∀ n : ℕ, 1 ≤ n →
      ∃ i, 1 ≤ i ∧ i ≤ n ∧
        (List.range' 1 n).foldl (fun st j =>
          let d := elbowPerpDist ks inertia j
          match st.1 with
          | none => (some d, ks.getD j 0)
          | some bd => if d > bd then (some d, ks.getD j 0) else st)
          ((none : Option ℝ), ks.getD 0 0) =
          (some (elbowPerpDist ks inertia i), ks.getD i 0) ∧
        ∀ j, 1 ≤ j → j ≤ n →
          elbowPerpDist ks inertia j ≤ elbowPerpDist ks inertia i := by
  intro n
  induction n with
  | zero => omega
  | succ n ih =>
    intro _
    by_cases hn : n = 0
    · subst hn
      refine ⟨1, le_rfl, le_rfl, rfl, ?_⟩
      intro j h1 h2
      have hj : j = 1 := by omega
      subst hj
      exact le_rfl
    · obtain ⟨i, hi1, hin, heq, hmax⟩ := ih (by omega)
      have hstep : (List.range' 1 (n + 1)).foldl (fun st j =>
          let d := elbowPerpDist ks inertia j
          match st.1 with
          | none => (some d, ks.getD j 0)
          | some bd => if d > bd then (some d, ks.getD j 0) else st)
          ((none : Option ℝ), ks.getD 0 0) =
          (if elbowPerpDist ks inertia (1 + n) > elbowPerpDist ks inertia i
           then (some (elbowPerpDist ks inertia (1 + n)), ks.getD (1 + n) 0)
           else (some (elbowPerpDist ks inertia i), ks.getD i 0)) := by
        rw [@List.range'_concat 1 1 n, List.foldl_append, List.foldl_cons,
          List.foldl_nil, Nat.one_mul, heq]
      by_cases hgt : elbowPerpDist ks inertia (1 + n) >
          elbowPerpDist ks inertia i
      · rw [hstep, if_pos hgt]
        refine ⟨1 + n, by omega, by omega, rfl, ?_⟩
        intro j hj1 hj2
        rcases Nat.lt_or_ge j (n + 1) with h | h
        · exact le_trans (hmax j hj1 (by omega)) (le_of_lt hgt)
        · have hj : j = 1 + n := by omega
          subst hj
          exact le_rfl
      · rw [hstep, if_neg hgt]
        refine ⟨i, hi1, by omega, rfl, ?_⟩
        intro j hj1 hj2
        rcases Nat.lt_or_ge j (n + 1) with h | h
        · exact hmax j hj1 (by omega)
        · have hj : j = 1 + n := by omega
          subst hj
          exact not_lt.mp hgt

/-- Claim C9: for parallel arrays of length ≥ 3, `suggestElbow` returns
an interior candidate `ks[i]` (`1 ≤ i ≤ ks.length − 2`) maximizing the
perpendicular distance to the line through the endpoints; in
particular (for pairwise distinct candidates) it is never the first or
last element of `ks`. -/
theorem suggestElbow_interior (ks : List ℤ) (inertia : List ℝ)
    (hlen : ks.length = inertia.length) (h3 : 3 ≤ ks.length) :
    ∃ i, 1 ≤ i ∧ i ≤ ks.length - 2 ∧
      suggestElbow ks inertia = ks.getD i 0 ∧
      (∀ j, 1 ≤ j → j ≤ ks.length - 2 →
        elbowPerpDist ks inertia j ≤ elbowPerpDist ks inertia i) ∧
      (ks.Nodup → suggestElbow ks inertia ≠ ks.getD 0 0 ∧
        suggestElbow ks inertia ≠ ks.getD (ks.length - 1) 0) := by
  have hcond : ¬ (ks.length ≠ inertia.length ∨ ks.length < 3) := by
    push_neg
    exact ⟨hlen, by omega⟩
  obtain ⟨i, hi1, hin, heq, hmax⟩ :=
    elbow_fold_spec ks inertia (ks.length - 2) (by omega)
  have hres : suggestElbow ks inertia = ks.getD i 0 := by
    rw [suggestElbow, if_neg hcond, heq]
  refine ⟨i, hi1, hin, hres, hmax, ?_⟩
  intro hnd
  rw [hres]
  have hinj : ∀ p q, p < ks.length → q < ks.length →
      ks.getD p 0 = ks.getD q 0 → p = q := by
    intro p q hp hq hpq
    rw [List.getD_eq_getElem ks 0 hp, List.getD_eq_getElem ks 0 hq] at hpq
    exact (List.Nodup.getElem_inj_iff hnd).mp hpq
  constructor
  · intro hbad
    have := hinj i 0 (by omega) (by omega) hbad
    omega
  · intro hbad
    have := hinj i (ks.length - 1) (by omega) (by omega) hbad
    omega

/-- Claim C9 (witness): for `ks = [2, 4, 6]`, `inertia = [4, 1, 1]` the
suggested elbow is the (only) interior candidate `4`. -/
theorem suggestElbow_interior_witness :
    suggestElbow [2, 4, 6] [4, 1, 1] = 4 := by
  obtain ⟨i, hi1, hin, heq, -, -⟩ :=
    suggestElbow_interior [2, 4, 6] [4, 1, 1] rfl (by decide)
  have hlen3 : ([2, 4, 6] : List ℤ).length = 3 := rfl
  rw [hlen3] at hin
  have hi : i = 1 := by omega
  subst hi
  rw [heq]
  rfl
